import Mathlib

/-!
Verification development for the in-memory hash aggregation operator
(`AggregationNode`, `be/src/exec/aggregation-node.h`).

The header declares the operator's interface and data members; the method
bodies (`ProcessRowBatchWithGrouping`, `ProcessRowBatchNoGrouping`,
`UpdateTuple`, `ConstructIntermediateTuple`, `FinalizeTuple`, `Open`,
`GetNext`, `Reset`) are not part of the provided sources, so they are
modelled here from the specification and from the header's own doc
comments: a shallow functional embedding with rows as lists of SQL-style
values, the hash table as an association list from materialized grouping
keys to intermediate tuples, and the optional codegen path as a second,
independently written update function selected by a flag.
-/

namespace AggNode

/-- A SQL-style value: NULL or a 64-bit-style integer (modelled as Int). -/
inductive Value where
  | vnull : Value
  | vint : Int → Value
deriving DecidableEq, Repr

/-- A row is a list of column values (a materialized `TupleRow`). -/
abbrev Row := List Value

/-- A materialized grouping key: the values of the grouping exprs for a row. -/
abbrev GroupKey := List Value

/-- The closed set of aggregate function kinds modelled here. -/
inductive AggFnKind where
  | count : AggFnKind
  | sum : AggFnKind
  | min : AggFnKind
  | max : AggFnKind
  | avg : AggFnKind
deriving DecidableEq, Repr

/-- An aggregate-function accumulator slot value: a plain integer (count),
a nullable integer (sum/min/max), or a sum/count pair (avg intermediate). -/
inductive AccVal where
  | aInt : Int → AccVal
  | aOpt : Option Int → AccVal
  | aPair : Int → Int → AccVal
deriving DecidableEq, Repr

/-- One aggregate function of the node: its kind and the input column its
input expression reads (expressions are modelled as slot references). -/
structure AggFn where
  kind : AggFnKind
  inputCol : Nat
deriving DecidableEq, Repr

/-- Configuration fixed at construction: grouping exprs (as column indices)
and the ordered list of aggregate functions (`agg_fns_`). -/
structure AggConfig where
  groupingCols : List Nat
  aggFns : List AggFn
deriving DecidableEq, Repr

/-- Evaluate a slot-reference expression against a row (missing slot is NULL). -/
def evalCol (row : Row) (c : Nat) : Value := row.getD c .vnull

/-- Evaluate the grouping exprs (`grouping_exprs_`) over a row, yielding the
row's materialized grouping key. Slot-wise, NULL compares equal to NULL under
`GroupKey` equality, matching SQL grouping semantics. -/
def evalGroupingKey (cfg : AggConfig) (row : Row) : GroupKey :=
  cfg.groupingCols.map (evalCol row)

/-- Convert a value to a nullable integer input for an aggregate update. -/
def valueToOptInt : Value → Option Int
  | .vnull => none
  | .vint n => some n

/-- Modelled from the spec: the declared initial value of each aggregate
function's slot (`ConstructIntermediateTuple` body is not in the sources):
0 for count, NULL for sum/min/max, a zero sum/count pair for avg. -/
def initValue : AggFnKind → AccVal
  | .count => .aInt 0
  | .avg => .aPair 0 0
  | _ => .aOpt none

/-- Initial accumulator slots for all aggregate functions of the node. -/
def initAccs (cfg : AggConfig) : List AccVal :=
  cfg.aggFns.map (fun f => initValue f.kind)

/-- Modelled from the spec: the per-function update rule applied by the
generic interpreted `UpdateTuple` (its body is not in the sources).
count counts non-NULL inputs; sum/min/max ignore NULL inputs and combine
non-NULL ones; avg accumulates a sum/count pair. -/
def updateValue : AggFnKind → AccVal → Option Int → AccVal
  | .count, .aInt n, x => .aInt (n + if x.isSome then 1 else 0)
  | .sum, .aOpt v, some n => .aOpt (some (v.getD 0 + n))
  | .min, .aOpt none, some n => .aOpt (some n)
  | .min, .aOpt (some m), some n => .aOpt (some (Min.min m n))
  | .max, .aOpt none, some n => .aOpt (some n)
  | .max, .aOpt (some m), some n => .aOpt (some (Max.max m n))
  | .avg, .aPair s c, some n => .aPair (s + n) (c + 1)
  | _, a, _ => a

/-- The aggregation intermediate tuple: grouping-value slots first, then one
accumulator slot per aggregate function (the grouping slots precede the
aggregation expr slots, as the header states). -/
structure ITuple where
  keySlots : GroupKey
  accSlots : List AccVal
deriving DecidableEq, Repr

/-- Modelled from the spec: `build_exprs_` are simply SlotRefs for the
intermediate tuple, so evaluating them over a constructed tuple reads back
its leading (grouping) slots. -/
def buildExprsEval (t : ITuple) : GroupKey := t.keySlots

/-- Modelled from the spec: `ConstructIntermediateTuple` — a fresh tuple
whose leading slots hold the grouping values of the current row and whose
aggregate slots hold the functions' initial values. -/
def constructIntermediateTuple (cfg : AggConfig) (k : GroupKey) : ITuple :=
  ⟨k, initAccs cfg⟩

/-- Update every accumulator slot of a tuple for one input row, using the
given per-slot update function (generic interpreted or codegen'd). -/
def updateAccsWith (f : AggFnKind → AccVal → Option Int → AccVal)
    (cfg : AggConfig) (accs : List AccVal) (row : Row) : List AccVal :=
  List.zipWith (fun fn a => f fn.kind a (valueToOptInt (evalCol row fn.inputCol)))
    cfg.aggFns accs

/-- `UpdateTuple`, parameterized by the per-slot update function: grouping
slots are untouched, accumulator slots are updated from the row. -/
def updateTupleWith (f : AggFnKind → AccVal → Option Int → AccVal)
    (cfg : AggConfig) (t : ITuple) (row : Row) : ITuple :=
  ⟨t.keySlots, updateAccsWith f cfg t.accSlots row⟩

/-- The generic interpreted `UpdateTuple` (the function codegen replaces). -/
def updateTuple (cfg : AggConfig) (t : ITuple) (row : Row) : ITuple :=
  updateTupleWith updateValue cfg t row

/-- The hash table (`hash_tbl_`) as an association list from materialized
grouping key to the group's intermediate tuple, in insertion order. -/
abbrev HashTbl := List (GroupKey × ITuple)

/-- Find the intermediate tuple stored under a grouping key. -/
def lookupKey : HashTbl → GroupKey → Option ITuple
  | [], _ => none
  | (k, t) :: rest, q => if k = q then some t else lookupKey rest q

/-- Apply a function to the tuple stored under a key (first match). -/
def updateEntry (tbl : HashTbl) (q : GroupKey) (g : ITuple → ITuple) : HashTbl :=
  match tbl with
  | [] => []
  | (k, t) :: rest =>
    if k = q then (k, g t) :: rest else (k, t) :: updateEntry rest q g

/-- Modelled from the spec: the per-row body of `ProcessRowBatchWithGrouping`
(not in the sources) — evaluate the grouping key, find-or-insert in the hash
table (constructing the intermediate tuple on first sight of the key), then
run the per-function update step on the resolved tuple. -/
def processRowWith (f : AggFnKind → AccVal → Option Int → AccVal)
    (cfg : AggConfig) (tbl : HashTbl) (row : Row) : HashTbl :=
  match lookupKey tbl (evalGroupingKey cfg row) with
  | some _ => updateEntry tbl (evalGroupingKey cfg row) (fun t => updateTupleWith f cfg t row)
  | none =>
    tbl ++ [(evalGroupingKey cfg row,
      updateTupleWith f cfg (constructIntermediateTuple cfg (evalGroupingKey cfg row)) row)]

/-- `ProcessRowBatchWithGrouping`, parameterized by the slot updater. -/
def processRowBatchWithGroupingW (f : AggFnKind → AccVal → Option Int → AccVal)
    (cfg : AggConfig) (tbl : HashTbl) (rows : List Row) : HashTbl :=
  rows.foldl (processRowWith f cfg) tbl

/-- The generic interpreted `ProcessRowBatchWithGrouping`. -/
def processRowBatchWithGrouping (cfg : AggConfig) (tbl : HashTbl)
    (rows : List Row) : HashTbl :=
  processRowBatchWithGroupingW updateValue cfg tbl rows

/-- Modelled from the spec: `ProcessRowBatchNoGrouping` (not in the sources)
— every row updates the singleton intermediate tuple; when the tuple is NULL
(zero-width result) rows are consumed without effect. -/
def processRowBatchNoGroupingW (f : AggFnKind → AccVal → Option Int → AccVal)
    (cfg : AggConfig) (s : Option ITuple) (rows : List Row) : Option ITuple :=
  rows.foldl (fun s r => s.map (fun t => updateTupleWith f cfg t r)) s

/-- Modelled from the spec: on `Open` in no-grouping mode the singleton
intermediate tuple (`singleton_intermediate_tuple_`) is created upfront,
except that it stays NULL when the result tuple is 0 width (header line 105). -/
def materializeSingleton (cfg : AggConfig) (s : Option ITuple) : Option ITuple :=
  match s with
  | some t => some t
  | none => if cfg.aggFns.isEmpty then none else some ⟨[], initAccs cfg⟩

/-- Modelled from the spec: the finalize step on one accumulator slot.
count/sum/min/max accumulators are already in final form; the avg sum/count
pair becomes NULL for an empty group and the quotient otherwise. -/
def finalizeAcc : AggFnKind → AccVal → AccVal
  | .avg, .aPair s c => if c = 0 then .aOpt none else .aOpt (some (s / c))
  | _, a => a

/-- Render a finalized accumulator slot as an output value. -/
def accToValue : AccVal → Value
  | .aInt n => .vint n
  | .aOpt none => .vnull
  | .aOpt (some n) => .vint n
  | .aPair _ _ => .vnull

/-- The finalize step applied to every accumulator slot of an intermediate
tuple, leaving the grouping slots untouched (`FinalizeTuple`). -/
def finalizeITupleAcc (cfg : AggConfig) (t : ITuple) : ITuple :=
  ⟨t.keySlots, List.zipWith (fun fn a => finalizeAcc fn.kind a) cfg.aggFns t.accSlots⟩

/-- The output row produced for one group: grouping values followed by the
finalized aggregate values (grouping slots precede aggregation slots). -/
def finalizeITuple (cfg : AggConfig) (t : ITuple) : List Value :=
  (finalizeITupleAcc cfg t).keySlots ++ (finalizeITupleAcc cfg t).accSlots.map accToValue

/-- Modelled from the spec: identity/initial output value of each aggregate
function over an empty input (count is 0, the others are NULL). -/
def identityValue : AggFnKind → Value
  | .count => .vint 0
  | _ => .vnull

/-- Modelled from the spec: `FinalizeTuple`'s allocation behaviour (its body
is not in the sources; the header states that for the Finalize case, if the
output tuple differs from the intermediate tuple, a new tuple is allocated
from the caller's pool). Tuples are modelled by reference ids and the pool by
its next fresh id; the result is (returned ref, next pool id, allocated?). -/
def finalizeTupleAlloc (needsFinalize : Bool) (sameLayout : Bool)
    (ref : Nat) (poolNext : Nat) : Nat × Nat × Bool :=
  if needsFinalize && !sameLayout then (poolNext, poolNext + 1, true)
  else (ref, poolNext, false)

/-- The mutable state of the operator cleared by `Reset`: the hash table,
the no-grouping singleton tuple, and the returned-rows progress counter. -/
structure AggNodeState where
  hashTbl : HashTbl
  singleton : Option ITuple
  numRowsReturned : Nat
deriving DecidableEq, Repr

/-- The state of a freshly constructed (or freshly reset) operator. -/
def initAggState : AggNodeState := ⟨[], none, 0⟩

/-- Modelled from the spec: `Open` drives the build phase to completion —
no-grouping mode materializes the singleton then updates it per row; grouping
mode routes every row through the hash table. -/
def openAggW (f : AggFnKind → AccVal → Option Int → AccVal)
    (cfg : AggConfig) (st : AggNodeState) (input : List Row) : AggNodeState :=
  if cfg.groupingCols.isEmpty then
    { st with singleton :=
        processRowBatchNoGroupingW f cfg (materializeSingleton cfg st.singleton) input }
  else
    { st with hashTbl := processRowBatchWithGroupingW f cfg st.hashTbl input }

/-- Modelled from the spec: the complete output phase (`GetNext` until
end-of-stream) — one finalized output row per hash-table entry, or the one
singleton row (none if the singleton is NULL). -/
def getNextAll (cfg : AggConfig) (st : AggNodeState) :
    List (List Value) × AggNodeState :=
  if cfg.groupingCols.isEmpty then
    match st.singleton with
    | none => ([], st)
    | some t => ([finalizeITuple cfg t], { st with numRowsReturned := 1 })
  else
    (st.hashTbl.map (fun e => finalizeITuple cfg e.2),
     { st with numRowsReturned := st.hashTbl.length })

/-- One full build-and-output cycle: `Open` over the whole input, then
`GetNext` until end-of-stream. -/
def runCycleW (f : AggFnKind → AccVal → Option Int → AccVal)
    (cfg : AggConfig) (st : AggNodeState) (input : List Row) :
    List (List Value) × AggNodeState :=
  getNextAll cfg (openAggW f cfg st input)

/-- Modelled from the spec: `Reset` clears all per-input state, returning the
operator to its pre-build state for reuse. -/
def resetAgg (_st : AggNodeState) : AggNodeState :=
  { hashTbl := [], singleton := none, numRowsReturned := 0 }

/-- Modelled from the spec: the codegen'd per-slot update function that the
specializer substitutes for the generic one (`CodegenUpdateSlot`); each kind
is compiled to its own specialized branch-free body. Required to be
observably identical to `updateValue`. -/
def specializedUpdateSlot : AggFnKind → AccVal → Option Int → AccVal
  | .count, a, x =>
    match a with
    | .aInt n => match x with | some _ => .aInt (n + 1) | none => .aInt n
    | a => a
  | .sum, a, x =>
    match a, x with
    | .aOpt none, some n => .aOpt (some n)
    | .aOpt (some s), some n => .aOpt (some (s + n))
    | a, _ => a
  | .min, a, x =>
    match a, x with
    | .aOpt none, some n => .aOpt (some n)
    | .aOpt (some m), some n => .aOpt (some (if n < m then n else m))
    | a, _ => a
  | .max, a, x =>
    match a, x with
    | .aOpt none, some n => .aOpt (some n)
    | .aOpt (some m), some n => .aOpt (some (if m < n then n else m))
    | a, _ => a
  | .avg, a, x =>
    match a, x with
    | .aPair s c, some n => .aPair (s + n, c + 1).1 (s + n, c + 1).2
    | a, _ => a

/-- The row-batch function pointer (`process_row_batch_fn_`): the codegen'd
specialized updater when codegen is enabled, the generic one otherwise. -/
def processRowBatchFn (codegenEnabled : Bool) :
    AggFnKind → AccVal → Option Int → AccVal :=
  if codegenEnabled then specializedUpdateSlot else updateValue

/-- Run the whole operator (fresh state, build, output) with codegen enabled
or disabled, returning the produced output rows. -/
def runAgg (codegenEnabled : Bool) (cfg : AggConfig) (input : List Row) :
    List (List Value) :=
  (runCycleW (processRowBatchFn codegenEnabled) cfg initAggState input).1

/-- Fold a group's rows through `UpdateTuple`, starting from a given tuple. -/
def gFoldW (f : AggFnKind → AccVal → Option Int → AccVal)
    (cfg : AggConfig) (t : ITuple) (rs : List Row) : ITuple :=
  rs.foldl (fun t r => updateTupleWith f cfg t r) t

/-- The rows of the input that belong to the group with key `k`. -/
def rowsFor (cfg : AggConfig) (k : GroupKey) (rows : List Row) : List Row :=
  rows.filter (fun r => decide (evalGroupingKey cfg r = k))

/-- The intermediate tuple a batch of rows produces for key `k`, given the
tuple (if any) already stored under `k`: fold the key's rows through the
update step, starting from the stored tuple or a freshly constructed one. -/
def groupResultW (f : AggFnKind → AccVal → Option Int → AccVal)
    (cfg : AggConfig) (rows : List Row) (base : Option ITuple) (k : GroupKey) :
    Option ITuple :=
  if base = none ∧ rowsFor cfg k rows = [] then none
  else some (gFoldW f cfg (base.getD (constructIntermediateTuple cfg k)) (rowsFor cfg k rows))

/-- The group result for key `k` over a fresh table: `none` when no input row
has key `k`, otherwise the fold of `UpdateTuple` over exactly those rows,
starting from a freshly constructed intermediate tuple. -/
def groupResult (cfg : AggConfig) (rows : List Row) (k : GroupKey) : Option ITuple :=
  groupResultW updateValue cfg rows none k

/-- Updating the entry stored under a key changes exactly that key's tuple. -/
theorem lookupKey_updateEntry_self (tbl : HashTbl) (q : GroupKey) (g : ITuple → ITuple) :
    lookupKey (updateEntry tbl q g) q = (lookupKey tbl q).map g := by
  induction tbl with
  | nil => rfl
  | cons e rest ih =>
    obtain ⟨k, t⟩ := e
    by_cases h : k = q
    · simp [updateEntry, lookupKey, h]
    · simp [updateEntry, lookupKey, h, ih]

/-- Updating the entry stored under a key leaves every other key unchanged. -/
theorem lookupKey_updateEntry_ne (tbl : HashTbl) (q : GroupKey) (g : ITuple → ITuple)
    (k : GroupKey) (h : k ≠ q) :
    lookupKey (updateEntry tbl q g) k = lookupKey tbl k := by
  induction tbl with
  | nil => rfl
  | cons e rest ih =>
    obtain ⟨k0, t⟩ := e
    by_cases h0 : k0 = q
    · subst h0
      have hk : ¬ (k0 = k) := fun hh => h hh.symm
      simp [updateEntry, lookupKey, hk]
    · simp [updateEntry, lookupKey, h0, ih]

/-- Updating an entry in place does not change the stored key sequence. -/
theorem map_fst_updateEntry (tbl : HashTbl) (q : GroupKey) (g : ITuple → ITuple) :
    (updateEntry tbl q g).map Prod.fst = tbl.map Prod.fst := by
  induction tbl with
  | nil => rfl
  | cons e rest ih =>
    obtain ⟨k, t⟩ := e
    by_cases h : k = q <;> simp [updateEntry, h, ih]

/-- Appending a fresh entry makes its tuple reachable under its key. -/
theorem lookupKey_append_self (tbl : HashTbl) (k : GroupKey) (t0 : ITuple)
    (h : lookupKey tbl k = none) :
    lookupKey (tbl ++ [(k, t0)]) k = some t0 := by
  induction tbl with
  | nil => simp [lookupKey]
  | cons e rest ih =>
    obtain ⟨k0, t⟩ := e
    by_cases h0 : k0 = k
    · simp [lookupKey, h0] at h
    · simp [lookupKey, h0] at h ⊢
      exact ih h

/-- Appending an entry for a different key does not disturb lookups. -/
theorem lookupKey_append_ne (tbl : HashTbl) (k0 : GroupKey) (t0 : ITuple)
    (k : GroupKey) (h : k0 ≠ k) :
    lookupKey (tbl ++ [(k0, t0)]) k = lookupKey tbl k := by
  induction tbl with
  | nil => simp [lookupKey, h]
  | cons e rest ih =>
    obtain ⟨k1, t⟩ := e
    by_cases h1 : k1 = k <;> simp [lookupKey, h1, ih]

/-- A key is absent from the table iff lookup fails on it. -/
theorem lookupKey_eq_none_iff (tbl : HashTbl) (k : GroupKey) :
    lookupKey tbl k = none ↔ k ∉ tbl.map Prod.fst := by
  induction tbl with
  | nil => simp [lookupKey]
  | cons e rest ih =>
    obtain ⟨k0, t⟩ := e
    by_cases h : k0 = k
    · simp [lookupKey, h]
    · have hk : ¬ (k = k0) := fun hh => h hh.symm
      simp [lookupKey, h, ih, hk]

/-- Filtering a batch for a key, one row at a time. -/
theorem rowsFor_cons (cfg : AggConfig) (k : GroupKey) (r : Row) (rows : List Row) :
    rowsFor cfg k (r :: rows) =
      if evalGroupingKey cfg r = k then r :: rowsFor cfg k rows
      else rowsFor cfg k rows := by
  by_cases h : evalGroupingKey cfg r = k <;> simp [rowsFor, h]

/-- Unfolding the group-result fold over the first row of a batch. -/
theorem groupResultW_cons (f : AggFnKind → AccVal → Option Int → AccVal)
    (cfg : AggConfig) (r : Row) (rows : List Row) (base : Option ITuple) (k : GroupKey) :
    groupResultW f cfg (r :: rows) base k =
      if evalGroupingKey cfg r = k then
        groupResultW f cfg rows
          (some (updateTupleWith f cfg (base.getD (constructIntermediateTuple cfg k)) r)) k
      else groupResultW f cfg rows base k := by
  by_cases h : evalGroupingKey cfg r = k
  · simp only [groupResultW, rowsFor_cons, if_pos h]
    have h1 : ¬ (base = none ∧ r :: rowsFor cfg k rows = []) := by simp
    have h2 : ¬ ((some (updateTupleWith f cfg
        (base.getD (constructIntermediateTuple cfg k)) r) : Option ITuple) = none
        ∧ rowsFor cfg k rows = []) := by simp
    rw [if_neg h1, if_neg h2]
    simp [gFoldW]
  · simp only [groupResultW, rowsFor_cons, if_neg h]

/-- One row changes exactly its own group in the hash table: lookup after
`processRowWith` returns the updated (or freshly constructed and updated)
tuple for the row's key and the untouched stored tuple for any other key. -/
theorem lookupKey_processRowWith (f : AggFnKind → AccVal → Option Int → AccVal)
    (cfg : AggConfig) (tbl : HashTbl) (r : Row) (k : GroupKey) :
    lookupKey (processRowWith f cfg tbl r) k =
      if evalGroupingKey cfg r = k then
        some (updateTupleWith f cfg
          ((lookupKey tbl k).getD (constructIntermediateTuple cfg k)) r)
      else lookupKey tbl k := by
  by_cases hk : evalGroupingKey cfg r = k
  · subst hk
    cases h : lookupKey tbl (evalGroupingKey cfg r) with
    | some t =>
      simp only [processRowWith, h, lookupKey_updateEntry_self, Option.map_some]
      simp [h]
    | none =>
      simp only [processRowWith, h]
      rw [lookupKey_append_self _ _ _ h]
      simp [h]
  · cases h : lookupKey tbl (evalGroupingKey cfg r) with
    | some t =>
      simp only [processRowWith, h]
      rw [lookupKey_updateEntry_ne _ _ _ _ (Ne.symm hk)]
      simp [hk]
    | none =>
      simp only [processRowWith, h]
      rw [lookupKey_append_ne _ _ _ _ hk]
      simp [hk]

/-- Lookup after processing a whole batch equals the per-group fold of
`UpdateTuple` over exactly the rows of that group. -/
theorem lookupKey_processRowBatchW (f : AggFnKind → AccVal → Option Int → AccVal)
    (cfg : AggConfig) (rows : List Row) :
    ∀ (tbl : HashTbl) (k : GroupKey),
      lookupKey (processRowBatchWithGroupingW f cfg tbl rows) k =
        groupResultW f cfg rows (lookupKey tbl k) k := by
  induction rows with
  | nil =>
    intro tbl k
    cases h : lookupKey tbl k <;>
      simp [processRowBatchWithGroupingW, groupResultW, rowsFor, gFoldW, h]
  | cons r rows ih =>
    intro tbl k
    have hstep : processRowBatchWithGroupingW f cfg tbl (r :: rows)
        = processRowBatchWithGroupingW f cfg (processRowWith f cfg tbl r) rows := rfl
    rw [hstep, ih, groupResultW_cons, lookupKey_processRowWith]
    by_cases h : evalGroupingKey cfg r = k <;> simp [h]

/-- Processing one row keeps the stored keys duplicate-free. -/
theorem nodup_map_fst_processRowWith (f : AggFnKind → AccVal → Option Int → AccVal)
    (cfg : AggConfig) (tbl : HashTbl) (r : Row)
    (h : (tbl.map Prod.fst).Nodup) :
    ((processRowWith f cfg tbl r).map Prod.fst).Nodup := by
  cases hl : lookupKey tbl (evalGroupingKey cfg r) with
  | some t => simp [processRowWith, hl, map_fst_updateEntry, h]
  | none =>
    have hmem := (lookupKey_eq_none_iff tbl (evalGroupingKey cfg r)).mp hl
    simp only [processRowWith, hl, List.map_append, List.map_cons, List.map_nil]
    rw [List.nodup_append]
    refine ⟨h, List.nodup_singleton _, ?_⟩
    intro a ha hb
    simp at hb
    exact hmem (hb ▸ ha)

/-- Processing a whole batch keeps the stored keys duplicate-free. -/
theorem nodup_map_fst_processRowBatchW (f : AggFnKind → AccVal → Option Int → AccVal)
    (cfg : AggConfig) (rows : List Row) :
    ∀ tbl : HashTbl, (tbl.map Prod.fst).Nodup →
      ((processRowBatchWithGroupingW f cfg tbl rows).map Prod.fst).Nodup := by
  induction rows with
  | nil => intro tbl h; exact h
  | cons r rows ih =>
    intro tbl h
    exact ih _ (nodup_map_fst_processRowWith f cfg tbl r h)

/-- The codegen'd per-slot update function computes exactly the generic
interpreted per-function update rule. -/
theorem specializedUpdateSlot_eq : specializedUpdateSlot = updateValue := by
  funext k a x
  cases a with
  | aInt n => cases k <;> cases x <;> simp [specializedUpdateSlot, updateValue]
  | aPair s c => cases k <;> cases x <;> simp [specializedUpdateSlot, updateValue]
  | aOpt v =>
    cases v <;> cases k <;> cases x <;>
      simp [specializedUpdateSlot, updateValue] <;>
      (try split) <;> omega

/-- Claim C2: for every configuration and input, running the operator with the
codegen'd (specialized) row-batch function enabled produces output identical to
running it with codegen disabled (the generic interpreted path). -/
theorem codegen_output_bitwise_identical (cfg : AggConfig) (input : List Row) :
    runAgg true cfg input = runAgg false cfg input := by
  have h1 : processRowBatchFn true = specializedUpdateSlot := rfl
  have h2 : processRowBatchFn false = updateValue := rfl
  unfold runAgg
  rw [h1, h2, specializedUpdateSlot_eq]

/-- Folding a right-commutative operation is invariant under permutation. -/
theorem foldl_eq_of_perm (g : AccVal → Option Int → AccVal)
    (hg : ∀ a x y, g (g a x) y = g (g a y) x)
    {l1 l2 : List (Option Int)} (hp : l1.Perm l2) :
    ∀ a, l1.foldl g a = l2.foldl g a := by
  induction hp with
  | nil => intro a; rfl
  | cons x hp ih => intro a; simp only [List.foldl_cons]; exact ih _
  | swap x y l => intro a; simp only [List.foldl_cons]; rw [hg]
  | trans hp1 hp2 ih1 ih2 => intro a; rw [ih1, ih2]

/-- The update rules of count, sum, min and max are right-commutative. -/
theorem updateValue_right_comm (k : AggFnKind)
    (hk : k = .count ∨ k = .sum ∨ k = .min ∨ k = .max)
    (a : AccVal) (x y : Option Int) :
    updateValue k (updateValue k a x) y = updateValue k (updateValue k a y) x := by
  rcases hk with h | h | h | h <;> subst h <;>
    (cases a with
     | aInt n => cases x <;> cases y <;> simp [updateValue]
     | aPair s c => cases x <;> cases y <;> simp [updateValue]
     | aOpt v => cases v <;> cases x <;> cases y <;> simp [updateValue] <;> omega)

/-- Claim C3: for sum, count, min and max, a group's accumulator slot value
after all `UpdateTuple` calls for the group is invariant under any permutation
of the order in which the group's input rows (here: their evaluated aggregate
inputs) arrive. -/
theorem agg_update_perm_invariant (k : AggFnKind)
    (hk : k = .count ∨ k = .sum ∨ k = .min ∨ k = .max)
    (a : AccVal) (l1 l2 : List (Option Int)) (hp : l1.Perm l2) :
    l1.foldl (updateValue k) a = l2.foldl (updateValue k) a :=
  foldl_eq_of_perm (updateValue k) (updateValue_right_comm k hk) hp a

/-- Witness for claim C3: a concrete permuted pair of sum inputs. -/
theorem agg_update_perm_invariant_check :
    ([some 1, none, some 5] : List (Option Int)).foldl (updateValue .sum) (.aOpt none)
      = ([some 5, some 1, none] : List (Option Int)).foldl (updateValue .sum) (.aOpt none) :=
  agg_update_perm_invariant .sum (Or.inr (Or.inl rfl)) (.aOpt none) _ _ (by decide)

/-- Lookup over a batch processed from an empty table fails exactly when no
input row has the key. -/
theorem lookupKey_batch_none_iff (cfg : AggConfig) (rows : List Row) (k : GroupKey) :
    lookupKey (processRowBatchWithGrouping cfg [] rows) k = none
      ↔ rowsFor cfg k rows = [] := by
  have h := lookupKey_processRowBatchW updateValue cfg rows [] k
  unfold processRowBatchWithGrouping
  rw [h]
  show groupResultW updateValue cfg rows none k = none ↔ _
  unfold groupResultW
  by_cases hf : rowsFor cfg k rows = [] <;> simp [hf]

/-- Claim C1: running the grouped aggregation over any input produces exactly
one hash-table entry (hence, via `GetNext`, exactly one output row) per distinct
grouping key observed in the input, and every input row is aggregated into
exactly one group's accumulator state: the tuple stored under each key is the
fold of `UpdateTuple` over precisely the input rows whose grouping key equals
that key, starting from a freshly constructed intermediate tuple. -/
theorem grouping_one_row_per_key (cfg : AggConfig) (rows : List Row) :
    (((processRowBatchWithGrouping cfg [] rows).map Prod.fst).Nodup)
    ∧ (∀ k : GroupKey, k ∈ (processRowBatchWithGrouping cfg [] rows).map Prod.fst
        ↔ ∃ r ∈ rows, evalGroupingKey cfg r = k)
    ∧ (∀ k : GroupKey, lookupKey (processRowBatchWithGrouping cfg [] rows) k
        = groupResult cfg rows k)
    ∧ (cfg.groupingCols ≠ [] →
        (runCycleW updateValue cfg initAggState rows).1
          = (processRowBatchWithGrouping cfg [] rows).map (fun e => finalizeITuple cfg e.2)) := by
  refine ⟨?_, ?_, ?_, ?_⟩
  · exact nodup_map_fst_processRowBatchW updateValue cfg rows [] (by simp)
  · intro k
    have h1 := lookupKey_eq_none_iff (processRowBatchWithGrouping cfg [] rows) k
    have h2 := lookupKey_batch_none_iff cfg rows k
    constructor
    · intro hmem
      by_contra hno
      have hfil : rowsFor cfg k rows = [] := by
        unfold rowsFor
        rw [List.filter_eq_nil_iff]
        intro r hr
        simp only [decide_eq_true_eq]
        exact fun hkey => hno ⟨r, hr, hkey⟩
      exact (h1.mp (h2.mpr hfil)) hmem
    · rintro ⟨r, hr, hkey⟩
      by_contra hmem
      have hfil := h2.mp (h1.mpr hmem)
      have hrf : r ∈ rowsFor cfg k rows := by
        unfold rowsFor
        rw [List.mem_filter]
        exact ⟨hr, by simp [hkey]⟩
      rw [hfil] at hrf
      exact absurd hrf (List.not_mem_nil r)
  · intro k
    have h := lookupKey_processRowBatchW updateValue cfg rows [] k
    exact h
  · intro hg
    have hne : cfg.groupingCols.isEmpty = false := by
      cases hcg : cfg.groupingCols with
      | nil => exact absurd hcg hg
      | cons a l => rfl
    simp [runCycleW, openAggW, getNextAll, hne, processRowBatchWithGrouping, initAggState]

/-- Witness for claim C1: the spec's concrete scenario, rows (10,1), (20,2),
(10,3) grouped by the first column with sum over the second. -/
theorem grouping_one_row_per_key_check :
    (runCycleW updateValue ⟨[0], [⟨.sum, 1⟩]⟩ initAggState
        [[Value.vint 10, Value.vint 1], [Value.vint 20, Value.vint 2],
         [Value.vint 10, Value.vint 3]]).1
      = (processRowBatchWithGrouping ⟨[0], [⟨.sum, 1⟩]⟩ []
          [[Value.vint 10, Value.vint 1], [Value.vint 20, Value.vint 2],
           [Value.vint 10, Value.vint 3]]).map
          (fun e => finalizeITuple ⟨[0], [⟨.sum, 1⟩]⟩ e.2)
    ∧ (runCycleW updateValue ⟨[0], [⟨.sum, 1⟩]⟩ initAggState
        [[Value.vint 10, Value.vint 1], [Value.vint 20, Value.vint 2],
         [Value.vint 10, Value.vint 3]]).1
      = [[Value.vint 10, Value.vint 4], [Value.vint 20, Value.vint 2]] :=
  ⟨(grouping_one_row_per_key _ _).2.2.2 (by decide), by decide⟩

/-- Claim C4: `Reset` after a complete build-and-output cycle on one input,
followed by a fresh build-and-output cycle on another input, yields exactly the
output (and state) of a freshly constructed operator run once on that input. -/
theorem reset_fresh_cycle_identical (cfg : AggConfig) (input1 input2 : List Row) :
    runCycleW updateValue cfg
        (resetAgg (runCycleW updateValue cfg initAggState input1).2) input2
      = runCycleW updateValue cfg initAggState input2 := rfl

/-- Claim C5: `FinalizeTuple` allocates a new output tuple from the caller's
pool iff the output layout differs from the intermediate layout and the
finalize (not serialize) step is required; when the layouts are equal it
returns the very tuple reference it was given. -/
theorem finalize_tuple_alloc_iff (needsFinalize sameLayout : Bool)
    (ref poolNext : Nat) :
    ((finalizeTupleAlloc needsFinalize sameLayout ref poolNext).2.2 = true
      ↔ (needsFinalize = true ∧ sameLayout = false))
    ∧ (sameLayout = true →
        (finalizeTupleAlloc needsFinalize sameLayout ref poolNext).1 = ref) := by
  cases needsFinalize <;> cases sameLayout <;> simp [finalizeTupleAlloc]

/-- Witness for claim C5: equal layouts return the given tuple reference. -/
theorem finalize_tuple_alloc_check :
    (finalizeTupleAlloc true true 7 0).1 = 7
    ∧ ((finalizeTupleAlloc true false 7 0).2.2 = true ↔ (true = true ∧ false = false)) :=
  ⟨(finalize_tuple_alloc_iff true true 7 0).2 rfl, (finalize_tuple_alloc_iff true false 7 0).1⟩

/-- Finalizing one accumulator slot twice equals finalizing it once. -/
theorem finalizeAcc_idem (k : AggFnKind) (a : AccVal) :
    finalizeAcc k (finalizeAcc k a) = finalizeAcc k a := by
  cases k <;> cases a <;> try rfl
  next s c =>
    rw [show finalizeAcc AggFnKind.avg (AccVal.aPair s c)
        = if c = 0 then AccVal.aOpt none else AccVal.aOpt (some (s / c)) from rfl]
    split <;> rfl

/-- Slot-wise idempotence of the finalize step over a tuple's accumulators. -/
theorem zipWith_finalizeAcc_idem (fns : List AggFn) :
    ∀ accs : List AccVal,
      List.zipWith (fun fn a => finalizeAcc fn.kind a) fns
          (List.zipWith (fun fn a => finalizeAcc fn.kind a) fns accs)
        = List.zipWith (fun fn a => finalizeAcc fn.kind a) fns accs := by
  induction fns with
  | nil => intro accs; rfl
  | cons fn fns ih =>
    intro accs
    cases accs with
    | nil => rfl
    | cons a accs => simp [ih, finalizeAcc_idem]

/-- Claim C6: the finalize step on an intermediate tuple is deterministic, and
idempotent — applying it twice yields the same tuple as applying it once. -/
theorem finalize_deterministic_idempotent (cfg : AggConfig) (t : ITuple) :
    finalizeITupleAcc cfg (finalizeITupleAcc cfg t) = finalizeITupleAcc cfg t
    ∧ (∀ u : ITuple, t = u → finalizeITupleAcc cfg t = finalizeITupleAcc cfg u) := by
  constructor
  · unfold finalizeITupleAcc
    simp [zipWith_finalizeAcc_idem]
  · intro u h
    rw [h]

/-- Witness for claim C6: a concrete avg accumulator pair. -/
theorem finalize_deterministic_idempotent_check :
    finalizeITupleAcc ⟨[], [⟨.avg, 0⟩]⟩
        (finalizeITupleAcc ⟨[], [⟨.avg, 0⟩]⟩ ⟨[], [.aPair 7 2]⟩)
      = finalizeITupleAcc ⟨[], [⟨.avg, 0⟩]⟩ ⟨[], [.aPair 7 2]⟩
    ∧ finalizeITupleAcc ⟨[], [⟨.avg, 0⟩]⟩ ⟨[], [.aPair 7 2]⟩
      = finalizeITupleAcc ⟨[], [⟨.avg, 0⟩]⟩ ⟨[], [.aPair 7 2]⟩ :=
  ⟨(finalize_deterministic_idempotent _ _).1,
   (finalize_deterministic_idempotent _ _).2 _ rfl⟩

/-- Finalizing each aggregate function's initial accumulator yields that
function's identity output value. -/
theorem finalize_init_eq_identity (fns : List AggFn) :
    (List.zipWith (fun fn a => finalizeAcc fn.kind a) fns
        (fns.map (fun f => initValue f.kind))).map accToValue
      = fns.map (fun fn => identityValue fn.kind) := by
  induction fns with
  | nil => rfl
  | cons fn fns ih =>
    simp only [List.map_cons, List.zipWith_cons_cons, ih]
    cases hfk : fn.kind <;> simp [finalizeAcc, initValue, accToValue, identityValue]

/-- Claim C7: in no-grouping mode, zero input rows with at least one aggregate
function produce exactly one output row, each slot holding its function's
identity/initial value. -/
theorem no_grouping_empty_input_identity_row (cfg : AggConfig)
    (hg : cfg.groupingCols = []) (ha : cfg.aggFns ≠ []) :
    runAgg false cfg [] = [cfg.aggFns.map (fun fn => identityValue fn.kind)] := by
  have hae : cfg.aggFns.isEmpty = false := by
    cases hc : cfg.aggFns with
    | nil => exact absurd hc ha
    | cons a l => rfl
  simp [runAgg, processRowBatchFn, runCycleW, openAggW, getNextAll, hg, hae,
    processRowBatchNoGroupingW, materializeSingleton, initAggState,
    finalizeITuple, finalizeITupleAcc, initAccs, finalize_init_eq_identity]

/-- Witness for claim C7: count and sum over an empty input. -/
theorem no_grouping_empty_input_identity_row_check :
    runAgg false ⟨[], [⟨.count, 0⟩, ⟨.sum, 0⟩]⟩ [] = [[Value.vint 0, Value.vnull]] := by
  have h := no_grouping_empty_input_identity_row ⟨[], [⟨.count, 0⟩, ⟨.sum, 0⟩]⟩ rfl (by decide)
  simpa using h

/-- Claim C8: in no-grouping mode with a zero-width output tuple and zero input
rows, the singleton intermediate tuple is never materialized (stays NULL) and
the operator emits zero output rows. -/
theorem no_grouping_zero_width_no_rows (cfg : AggConfig)
    (hg : cfg.groupingCols = []) (ha : cfg.aggFns = []) :
    (openAggW updateValue cfg initAggState []).singleton = none
    ∧ runAgg false cfg [] = [] := by
  constructor <;>
    simp [openAggW, runAgg, processRowBatchFn, runCycleW, getNextAll, hg, ha,
      materializeSingleton, processRowBatchNoGroupingW, initAggState]

/-- Witness for claim C8: the empty configuration on empty input. -/
theorem no_grouping_zero_width_no_rows_check :
    (openAggW updateValue ⟨[], []⟩ initAggState []).singleton = none
    ∧ runAgg false ⟨[], []⟩ [] = [] :=
  no_grouping_zero_width_no_rows ⟨[], []⟩ rfl rfl

/-- Claim C9: grouping-key equality treats NULL as equal to NULL — the rows
(null,1) and (null,2) have equal grouping keys, and grouping them by the first
column with count over the second produces exactly one group (null, 2). -/
theorem nulls_group_together :
    evalGroupingKey ⟨[0], [⟨.count, 1⟩]⟩ [Value.vnull, Value.vint 1]
        = evalGroupingKey ⟨[0], [⟨.count, 1⟩]⟩ [Value.vnull, Value.vint 2]
    ∧ runAgg false ⟨[0], [⟨.count, 1⟩]⟩
        [[Value.vnull, Value.vint 1], [Value.vnull, Value.vint 2]]
      = [[Value.vnull, Value.vint 2]] := by
  constructor <;> decide

/-- Updating an entry in place with a grouping-slot-preserving function keeps
the key-matches-leading-slots invariant. -/
theorem key_invariant_updateEntry (q : GroupKey) (g : ITuple → ITuple)
    (hg : ∀ t : ITuple, (g t).keySlots = t.keySlots) :
    ∀ tbl : HashTbl, (∀ e ∈ tbl, buildExprsEval e.2 = e.1) →
      ∀ e ∈ updateEntry tbl q g, buildExprsEval e.2 = e.1 := by
  intro tbl
  induction tbl with
  | nil => intro h e he; simp [updateEntry] at he
  | cons e0 rest ih =>
    intro h e he
    obtain ⟨k0, t0⟩ := e0
    by_cases h0 : k0 = q
    · rw [updateEntry, if_pos h0] at he
      rcases List.mem_cons.mp he with he | he
      · subst he
        have hh := h (k0, t0) (List.mem_cons_self _ _)
        simp only [buildExprsEval] at hh ⊢
        rw [hg t0]
        exact hh
      · exact h e (List.mem_cons_of_mem _ he)
    · rw [updateEntry, if_neg h0] at he
      rcases List.mem_cons.mp he with he | he
      · subst he
        exact h (k0, t0) (List.mem_cons_self _ _)
      · exact ih (fun x hx => h x (List.mem_cons_of_mem _ hx)) e he

/-- Processing one input row keeps the key-matches-leading-slots invariant. -/
theorem key_invariant_processRowWith (f : AggFnKind → AccVal → Option Int → AccVal)
    (cfg : AggConfig) (tbl : HashTbl) (r : Row)
    (h : ∀ e ∈ tbl, buildExprsEval e.2 = e.1) :
    ∀ e ∈ processRowWith f cfg tbl r, buildExprsEval e.2 = e.1 := by
  intro e he
  cases hl : lookupKey tbl (evalGroupingKey cfg r) with
  | some t =>
    simp only [processRowWith, hl] at he
    exact key_invariant_updateEntry (evalGroupingKey cfg r)
      (fun t => updateTupleWith f cfg t r) (fun _ => rfl) tbl h e he
  | none =>
    simp only [processRowWith, hl] at he
    rcases List.mem_append.mp he with he | he
    · exact h e he
    · rcases List.mem_singleton.mp he with rfl
      rfl

/-- Claim C10: invariant kept by every insert and update — the build exprs are
plain slot references into the intermediate tuple, so for every live hash-table
entry the key under which the tuple is stored equals the grouping values held
in the tuple's leading slots (which precede the aggregation slots). -/
theorem hash_key_matches_tuple_slots (cfg : AggConfig) (tbl : HashTbl)
    (rows : List Row) (h : ∀ e ∈ tbl, buildExprsEval e.2 = e.1) :
    ∀ e ∈ processRowBatchWithGrouping cfg tbl rows, buildExprsEval e.2 = e.1 := by
  unfold processRowBatchWithGrouping
  induction rows generalizing tbl with
  | nil => exact h
  | cons r rows ih =>
    have hstep : processRowBatchWithGroupingW updateValue cfg tbl (r :: rows)
        = processRowBatchWithGroupingW updateValue cfg
            (processRowWith updateValue cfg tbl r) rows := rfl
    rw [hstep]
    exact ih _ (key_invariant_processRowWith updateValue cfg tbl r h)

/-- Witness for claim C10: the entry built from two NULL-keyed rows. -/
theorem hash_key_matches_tuple_slots_check :
    buildExprsEval (⟨[Value.vnull], [AccVal.aInt 2]⟩ : ITuple) = [Value.vnull] :=
  hash_key_matches_tuple_slots ⟨[0], [⟨.count, 1⟩]⟩ []
    [[Value.vnull, Value.vint 1], [Value.vnull, Value.vint 2]]
    (by simp)
    ([Value.vnull], (⟨[Value.vnull], [AccVal.aInt 2]⟩ : ITuple)) (by decide)

end AggNode
